import Mathlib

/-!
Verification of the notebook content compiler (`compile.py`).

The script has two pure cores — `sanitize_id` (slug generation) and
`parse_markdown_headers` (table-of-contents extraction) — plus a thin
aggregation loop that merges each content directory's metadata with its
markdown body and extracted TOC, writing one `directory.json` at the end.

We embed the program shallowly: strings are Lean `String`s manipulated as
`List Char`, Python's regex substitutions are modelled as explicit
character-list transformations, the per-line regex
`^(#{1,6})\s+(.+)$` is modelled by its (deterministic) matching
behaviour including backtracking of `\s+` against `(.+)`, and the
aggregation loop over directories is modelled as a fold over an abstract
list of directory entries returning `Except` (an exception aborts the run
before the output write).  ASCII semantics are used for lowercasing and
whitespace, matching the script's intended inputs.
-/

namespace Notebook

/-- The six ASCII characters matched by Python's `\s` / `str.strip()`
on ASCII input: space, tab, newline, carriage return, vertical tab, form feed. -/
def pyIsSpace (c : Char) : Bool :=
  c.toNat = 32 || c.toNat = 9 || c.toNat = 10 || c.toNat = 13 ||
  c.toNat = 11 || c.toNat = 12

/-- ASCII lowercasing, as performed by `str.lower()` on ASCII text. -/
def asciiLower (c : Char) : Char :=
  if 65 ≤ c.toNat ∧ c.toNat ≤ 90 then Char.ofNat (c.toNat + 32) else c

/-- Membership in the character class `[a-z0-9\s-]` of the regex in
`sanitize_id` step 2 (the characters that are KEPT). -/
def isKept (c : Char) : Bool :=
  (97 ≤ c.toNat && c.toNat ≤ 122) || (48 ≤ c.toNat && c.toNat ≤ 57) ||
  pyIsSpace c || c.toNat = 45

/-- Replace every maximal run of characters satisfying `p` by the single
character `r`; models `re.sub(p+, r, s)` for a single-character class `p`
and single-character replacement.  `inRun` records whether the previous
character was part of a `p`-run. -/
def collapseRunsAux (p : Char → Bool) (r : Char) : Bool → List Char → List Char
  | _, [] => []
  | inRun, c :: cs =>
    if p c then
      if inRun then collapseRunsAux p r true cs
      else r :: collapseRunsAux p r true cs
    else
      c :: collapseRunsAux p r false cs

def collapseRuns (p : Char → Bool) (r : Char) (l : List Char) : List Char :=
  collapseRunsAux p r false l

/-- The hyphen character. -/
def dashChar : Char := Char.ofNat 45

/-- `sanitize_id` on character lists, following the four steps of the
source in order: lowercase, drop characters outside `[a-z0-9\s-]`,
replace each whitespace run by one hyphen, collapse hyphen runs. -/
def sanitizeList (l : List Char) : List Char :=
  collapseRuns (fun c => c = dashChar) dashChar
    (collapseRuns pyIsSpace dashChar
      ((l.map asciiLower).filter isKept))

/-- `sanitize_id(text)` from `compile.py`. -/
def sanitize_id (s : String) : String :=
  ⟨sanitizeList s.data⟩

/-- Python's `str.split('\n')`: split into lines at newline characters,
keeping empty segments (`"".split('\n') == [""]`). -/
def splitLines : List Char → List (List Char)
  | [] => [[]]
  | c :: cs =>
    if c.toNat = 10 then [] :: splitLines cs
    else
      match splitLines cs with
      | [] => [[c]]
      | l :: ls => (c :: l) :: ls

/-- Python's `str.strip()` (ASCII whitespace): drop whitespace from both
ends. -/
def pyStrip (l : List Char) : List Char :=
  (((l.dropWhile pyIsSpace).reverse).dropWhile pyIsSpace).reverse

/-- Does the list start with three copies of `c`?  Models
`s.startswith(ccc)` for a three-character pattern. -/
def startsWith3 (c : Char) : List Char → Bool
  | a :: b :: d :: _ => a = c && b = c && d = c
  | _ => false

/-- The backtick character. -/
def tickChar : Char := Char.ofNat 96

/-- The tilde character. -/
def tildeChar : Char := Char.ofNat 126

/-- The fence test of `parse_markdown_headers`:
`stripped_line.startswith('```') or stripped_line.startswith('~~~')`. -/
def isFenceLine (line : List Char) : Bool :=
  startsWith3 tickChar (pyStrip line) || startsWith3 tildeChar (pyStrip line)

/-- The hash character. -/
def hashChar : Char := Char.ofNat 35

/-- Number of leading `#` characters of a line. -/
def countHashes (line : List Char) : Nat :=
  (line.takeWhile (fun c => c.toNat = 35)).length

/-- Matching of `header_pattern = ^(#{1,6})\s+(.+)$` against a line
containing no newline.  Returns `(level, raw_title)` on success, where
`raw_title` is the text captured by `(.+)`.

Because the character after the matched hashes must be whitespace, the
greedy `#{1,6}` can only succeed by taking all leading hashes, and only
when there are between 1 and 6 of them.  Then `\s+` requires the next
character to be whitespace and `(.+)$` requires at least one further
character; greedy `\s+` swallows the whole whitespace run, giving it back
one character to `(.+)` only when nothing follows the run. -/
def headerMatch (line : List Char) : Option (Nat × List Char) :=
  let n := countHashes line
  let r := line.dropWhile (fun c => c.toNat = 35)
  match r with
  | [] => none
  | c :: rest =>
    if 1 ≤ n ∧ n ≤ 6 ∧ pyIsSpace c ∧ rest ≠ [] then
      let t := r.dropWhile pyIsSpace
      some (n, if t.isEmpty then r.drop (r.length - 1) else t)
    else none

/-- A recognized header: `{"level": …, "id": …, "title": …}`. -/
structure HeaderRecord where
  level : Nat
  id : String
  title : String
deriving DecidableEq, Repr

/-- The header-handling of one line of `parse_markdown_headers` (regex
match, then `title = raw_title.strip()`, `slug = sanitize_id(title)`). -/
def headerRecordOfLine (line : List Char) : Option HeaderRecord :=
  match headerMatch line with
  | none => none
  | some (n, rawTitle) =>
    let title := pyStrip rawTitle
    some { level := n, id := ⟨sanitizeList title⟩, title := ⟨title⟩ }

/-- The line loop of `parse_markdown_headers`: fence test first (toggling
`in_code_block`), then the in-code-block skip, then the header test. -/
def parseLines : Bool → List (List Char) → List HeaderRecord
  | _, [] => []
  | inCode, line :: rest =>
    if isFenceLine line then parseLines (!inCode) rest
    else if inCode then parseLines inCode rest
    else
      match headerRecordOfLine line with
      | some h => h :: parseLines inCode rest
      | none => parseLines inCode rest

/-- `parse_markdown_headers(markdown_text)` from `compile.py`. -/
def parse_markdown_headers (s : String) : List HeaderRecord :=
  parseLines false (splitLines s.data)

/-- The fence state (`in_code_block`) after processing a list of lines
starting from state `b`. -/
def stateAfter (b : Bool) : List (List Char) → Bool
  | [] => b
  | line :: rest => stateAfter (if isFenceLine line then !b else b) rest

/-- JSON-compatible values held by a page record: metadata scalars, the
injected strings, and the injected TOC (a list of header records). -/
inductive PValue where
  | str : String → PValue
  | num : Int → PValue
  | bool : Bool → PValue
  | null : PValue
  | toc : List HeaderRecord → PValue
deriving DecidableEq, Repr

/-- A JSON object / Python dict as an insertion-ordered association
list. -/
abbrev Dict := List (String × PValue)

/-- Python `d[k] = v` on an insertion-ordered dict: overwrite in place if
the key is present, else append at the end. -/
def dictSet (d : Dict) (k : String) (v : PValue) : Dict :=
  if (d.map Prod.fst).contains k then
    d.map (fun p => if p.1 = k then (k, v) else p)
  else d ++ [(k, v)]

/-- Python dict lookup. -/
def dictGet (d : Dict) (k : String) : Option PValue :=
  List.lookup k d

/-- The enrichment of one page's metadata by the aggregation loop:
`meta['slug'] = entry.name; meta['content'] = content;
`meta['toc'] = parse_markdown_headers(content)`. -/
def buildPage (dirName : String) (content : String) (meta : Dict) : Dict :=
  dictSet
    (dictSet (dictSet meta "slug" (PValue.str dirName))
      "content" (PValue.str content))
    "toc" (PValue.toc (parse_markdown_headers content))

/-- One content directory as seen by the aggregation loop: its name, its
`index.md` body if that file exists, and its parsed `metadata.json` if
that file exists and parses (`none` models the uncaught exception raised
by `open`/`json.loads`). -/
structure DirEntry where
  name : String
  indexMd : Option String
  metadataJson : Option Dict

/-- The error that aborts the run: a directory lacking a source file. -/
inductive CompileError where
  | missingSource : String → CompileError
deriving DecidableEq, Repr

/-- The aggregation loop: build each page in directory order, aborting the
whole run with an error as soon as a directory lacks `index.md` or
`metadata.json` (an uncaught exception in the Python loop). -/
def buildPages : List DirEntry → Except CompileError (List Dict)
  | [] => .ok []
  | e :: rest =>
    match e.indexMd with
    | none => .error (.missingSource e.name)
    | some content =>
      match e.metadataJson with
      | none => .error (.missingSource e.name)
      | some meta =>
        match buildPages rest with
        | .error err => .error err
        | .ok ps => .ok (buildPage e.name content meta :: ps)

/-- The content of `directory.json` after a run over the given
directories: `some` pages only when every page was built, `none` when the
run aborted before the final write (so the file is never created or
modified). -/
def compileOutput (ds : List DirEntry) : Option (List Dict) :=
  (buildPages ds).toOption

/-! ## Lemmas about `collapseRuns` and the slug generator -/

/-- A character of the output of `collapseRunsAux` is either the
replacement character or a character of the input not satisfying `p`. -/
lemma mem_collapseRunsAux {p : Char → Bool} {r : Char} :
    ∀ {b : Bool} {l : List Char} {c : Char},
      c ∈ collapseRunsAux p r b l → c = r ∨ (c ∈ l ∧ p c = false) := by
  intro b l
  induction l generalizing b with
  | nil => intro c h; simp [collapseRunsAux] at h
  | cons a t ih =>
    intro c h
    simp only [collapseRunsAux] at h
    by_cases ha : p a
    · simp only [ha, if_true] at h
      cases b with
      | true =>
        simp only [if_true] at h
        rcases ih h with h1 | ⟨h2, h3⟩
        · exact Or.inl h1
        · exact Or.inr ⟨List.mem_cons_of_mem a h2, h3⟩
      | false =>
        simp only [Bool.false_eq_true, if_false] at h
        rcases List.mem_cons.mp h with hc | hc
        · exact Or.inl hc
        · rcases ih hc with h1 | ⟨h2, h3⟩
          · exact Or.inl h1
          · exact Or.inr ⟨List.mem_cons_of_mem a h2, h3⟩
    · rw [if_neg ha] at h
      rcases List.mem_cons.mp h with hc | hc
      · subst hc
        exact Or.inr ⟨List.mem_cons_self c t, Bool.not_eq_true _ |>.mp ha⟩
      · rcases ih hc with h1 | ⟨h2, h3⟩
        · exact Or.inl h1
        · exact Or.inr ⟨List.mem_cons_of_mem a h2, h3⟩

/-- `collapseRunsAux` is the identity when no character satisfies `p`. -/
lemma collapseRunsAux_id {p : Char → Bool} {r : Char} :
    ∀ {b : Bool} {l : List Char}, (∀ c ∈ l, p c = false) →
      collapseRunsAux p r b l = l := by
  intro b l
  induction l generalizing b with
  | nil => intro _; rfl
  | cons a t ih =>
    intro h
    have ha : p a = false := h a (List.mem_cons_self a t)
    simp only [collapseRunsAux, ha, Bool.false_eq_true, if_false]
    exact congrArg (a :: ·) (ih fun c hc => h c (List.mem_cons_of_mem a hc))

/-- `true` exactly when the list contains two adjacent dash characters. -/
def hasDD : List Char → Bool
  | [] => false
  | a :: l => (decide (a = dashChar) && !headND l) || hasDD l
where
  /-- `true` when the list is empty or does not start with a dash. -/
  headND : List Char → Bool
    | [] => true
    | c :: _ => !(decide (c = dashChar))

/-- Dash collapsing never produces two adjacent dashes, and in a run
(`b = true`) the output never starts with a dash. -/
lemma collapseDash_no_dd :
    ∀ (l : List Char) (b : Bool),
      hasDD (collapseRunsAux (fun c => c = dashChar) dashChar b l) = false ∧
      (b = true →
        hasDD.headND (collapseRunsAux (fun c => c = dashChar) dashChar b l) = true) := by
  intro l
  induction l with
  | nil => intro b; exact ⟨rfl, fun _ => rfl⟩
  | cons c t ih =>
    intro b
    by_cases hc : c = dashChar
    · cases b with
      | true =>
        simp only [collapseRunsAux, hc, decide_True, if_true]
        exact ⟨(ih true).1, fun _ => (ih true).2 rfl⟩
      | false =>
        simp only [collapseRunsAux, hc, decide_True, if_true,
          Bool.false_eq_true, if_false]
        constructor
        · simp only [hasDD, decide_True, Bool.true_and, Bool.or_eq_false_iff]
          exact ⟨by simp [(ih true).2 rfl], (ih true).1⟩
        · intro h; cases h
    · have hc2 : decide (c = dashChar) = false := by simp [hc]
      simp only [collapseRunsAux, hc2, if_false, Bool.false_eq_true]
      constructor
      · simp only [hasDD, hc2, Bool.false_and, Bool.false_or]
        exact (ih false).1
      · intro _
        simp [hasDD.headND, hc2]

/-- Dash collapsing is the identity on a list without adjacent dashes
(started outside a run, or inside a run when the list does not start with
a dash). -/
lemma collapseDash_id_of_no_dd :
    ∀ (l : List Char), hasDD l = false →
      collapseRunsAux (fun c => c = dashChar) dashChar false l = l ∧
      (hasDD.headND l = true →
        collapseRunsAux (fun c => c = dashChar) dashChar true l = l) := by
  intro l
  induction l with
  | nil => intro _; exact ⟨rfl, fun _ => rfl⟩
  | cons c t ih =>
    intro h
    simp only [hasDD, Bool.or_eq_false_iff, Bool.and_eq_false_iff] at h
    obtain ⟨h1, h2⟩ := h
    by_cases hc : c = dashChar
    · have hhead : hasDD.headND t = true := by
        rcases h1 with h1 | h1
        · simp [hc] at h1
        · simpa using h1
      constructor
      · simp only [collapseRunsAux, hc, decide_True, if_true,
          Bool.false_eq_true, if_false]
        rw [(ih h2).2 hhead]
      · intro habs
        simp [hasDD.headND, hc] at habs
    · have hc2 : decide (c = dashChar) = false := by simp [hc]
      constructor
      · simp only [collapseRunsAux, hc2, if_false, Bool.false_eq_true]
        rw [(ih h2).1]
      · intro _
        simp only [collapseRunsAux, hc2, if_false, Bool.false_eq_true]
        rw [(ih h2).1]

/-- Dash collapsing is idempotent. -/
lemma collapseDash_idem (l : List Char) :
    collapseRuns (fun c => c = dashChar) dashChar
      (collapseRuns (fun c => c = dashChar) dashChar l) =
    collapseRuns (fun c => c = dashChar) dashChar l :=
  (collapseDash_id_of_no_dd _ (collapseDash_no_dd l false).1).1

/-- Kept characters are fixed by ASCII lowercasing (the kept class has no
uppercase letters). -/
lemma asciiLower_of_isKept {c : Char} (h : isKept c = true) :
    asciiLower c = c := by
  simp only [isKept, Bool.or_eq_true, Bool.and_eq_true, decide_eq_true_eq] at h
  unfold asciiLower
  rw [if_neg]
  simp only [pyIsSpace, Bool.or_eq_true, decide_eq_true_eq] at h
  omega

/-- Every character of a slug is kept, is not whitespace, and is fixed by
lowercasing. -/
lemma sanitizeList_chars {l : List Char} {c : Char} (h : c ∈ sanitizeList l) :
    isKept c = true ∧ pyIsSpace c = false ∧ asciiLower c = c := by
  have hdash : isKept dashChar = true ∧ pyIsSpace dashChar = false ∧
      asciiLower dashChar = dashChar := by decide
  rcases mem_collapseRunsAux h with h1 | ⟨h2, _⟩
  · exact h1 ▸ hdash
  · rcases mem_collapseRunsAux h2 with h3 | ⟨h4, h5⟩
    · exact h3 ▸ hdash
    · have h6 := List.mem_filter.mp h4
      exact ⟨h6.2, h5, asciiLower_of_isKept h6.2⟩

/-- `sanitizeList` is idempotent. -/
lemma sanitizeList_idem (l : List Char) :
    sanitizeList (sanitizeList l) = sanitizeList l := by
  have hmap : (sanitizeList l).map asciiLower = sanitizeList l :=
    ((List.map_congr_left fun c hc => (sanitizeList_chars hc).2.2).trans
      (List.map_id _) : (sanitizeList l).map asciiLower = sanitizeList l)
  have hfilter : (sanitizeList l).filter isKept = sanitizeList l :=
    List.filter_eq_self.mpr fun c hc => (sanitizeList_chars hc).1
  have hsquash : collapseRuns pyIsSpace dashChar (sanitizeList l) =
      sanitizeList l :=
    collapseRunsAux_id fun c hc => (sanitizeList_chars hc).2.1
  show collapseRuns (fun c => c = dashChar) dashChar
      (collapseRuns pyIsSpace dashChar
        (((sanitizeList l).map asciiLower).filter isKept)) = sanitizeList l
  rw [hmap, hfilter, hsquash]
  exact collapseDash_idem _

/-! ## Lemmas about the line loop -/

/-- Processing an appended list of lines composes, threading the fence
state through the first part. -/
lemma parseLines_append (b : Bool) (p q : List (List Char)) :
    parseLines b (p ++ q) = parseLines b p ++ parseLines (stateAfter b p) q := by
  induction p generalizing b with
  | nil => rfl
  | cons line rest ih =>
    by_cases hf : isFenceLine line
    · simp only [List.cons_append, parseLines, hf, if_true, stateAfter]
      exact ih (!b)
    · cases b with
      | true =>
        simp only [List.cons_append, parseLines, hf, Bool.false_eq_true,
          if_false, if_true, stateAfter]
        exact ih true
      | false =>
        simp only [List.cons_append, parseLines, hf, Bool.false_eq_true,
          if_false, stateAfter]
        cases hh : headerRecordOfLine line with
        | none => exact ih false
        | some h => simp only [List.append_eq, ih false, List.cons_append]

/-- While inside a code block, lines that are not fences produce
nothing. -/
lemma parseLines_true_no_fence :
    ∀ (ls : List (List Char)), (∀ l ∈ ls, isFenceLine l = false) →
      parseLines true ls = [] := by
  intro ls
  induction ls with
  | nil => intro _; rfl
  | cons line rest ih =>
    intro h
    have hf : isFenceLine line = false := h line (List.mem_cons_self line rest)
    simp only [parseLines, hf, Bool.false_eq_true, if_false, if_true]
    exact ih fun l hl => h l (List.mem_cons_of_mem line hl)

/-- Every record produced by the line loop comes from the header test on
one of the lines. -/
lemma mem_parseLines :
    ∀ {b : Bool} {ls : List (List Char)} {h : HeaderRecord},
      h ∈ parseLines b ls → ∃ line ∈ ls, headerRecordOfLine line = some h := by
  intro b ls
  induction ls generalizing b with
  | nil => intro h hmem; simp [parseLines] at hmem
  | cons line rest ih =>
    intro h hmem
    by_cases hf : isFenceLine line
    · simp only [parseLines, hf, if_true] at hmem
      obtain ⟨l, hl, he⟩ := ih hmem
      exact ⟨l, List.mem_cons_of_mem line hl, he⟩
    · cases b with
      | true =>
        simp only [parseLines, hf, Bool.false_eq_true, if_false, if_true] at hmem
        obtain ⟨l, hl, he⟩ := ih hmem
        exact ⟨l, List.mem_cons_of_mem line hl, he⟩
      | false =>
        simp only [parseLines, hf, Bool.false_eq_true, if_false] at hmem
        cases hh : headerRecordOfLine line with
        | none =>
          rw [hh] at hmem
          obtain ⟨l, hl, he⟩ := ih hmem
          exact ⟨l, List.mem_cons_of_mem line hl, he⟩
        | some h0 =>
          rw [hh] at hmem
          rcases List.mem_cons.mp hmem with hc | hc
          · exact ⟨line, List.mem_cons_self line rest, hc ▸ hh⟩
          · obtain ⟨l, hl, he⟩ := ih hc
            exact ⟨l, List.mem_cons_of_mem line hl, he⟩

/-! ## Lemmas about the header regex -/

/-- On a successful match, the level is the number of leading hashes and
lies between 1 and 6. -/
lemma headerMatch_level :
    ∀ (line : List Char) (n : Nat) (raw : List Char),
      headerMatch line = some (n, raw) →
      n = countHashes line ∧ 1 ≤ n ∧ n ≤ 6 := by
  intro line n raw h
  simp only [headerMatch] at h
  cases hr : line.dropWhile (fun c => c.toNat = 35) with
  | nil => rw [hr] at h; exact absurd h (by simp)
  | cons c rest =>
    rw [hr] at h
    simp only [] at h
    by_cases hcond : 1 ≤ countHashes line ∧ countHashes line ≤ 6 ∧
        pyIsSpace c = true ∧ rest ≠ []
    · rw [if_pos hcond] at h
      injection h with h2
      have h1 : countHashes line = n := congrArg Prod.fst h2
      exact ⟨h1.symm, h1 ▸ hcond.1, h1 ▸ hcond.2.1⟩
    · rw [if_neg hcond] at h
      exact absurd h (by simp)

/-- A line starting with seven or more hashes never matches the header
pattern. -/
lemma headerMatch_none_of_many_hashes :
    ∀ (line : List Char), 7 ≤ countHashes line → headerMatch line = none := by
  intro line h7
  simp only [headerMatch]
  cases hr : line.dropWhile (fun c => c.toNat = 35) with
  | nil => rfl
  | cons c rest =>
    simp only []
    rw [if_neg]
    intro hcond
    exact absurd hcond.2.1 (by omega)

/-- The level of a recognized header record is the number of leading
hashes of its line, between 1 and 6. -/
lemma headerRecordOfLine_level :
    ∀ (line : List Char) (h : HeaderRecord),
      headerRecordOfLine line = some h →
      h.level = countHashes line ∧ 1 ≤ h.level ∧ h.level ≤ 6 := by
  intro line h hrec
  simp only [headerRecordOfLine] at hrec
  cases hm : headerMatch line with
  | none => rw [hm] at hrec; exact absurd hrec (by simp)
  | some p =>
    obtain ⟨n, raw⟩ := p
    rw [hm] at hrec
    simp only [] at hrec
    obtain ⟨h1, h2, h3⟩ := headerMatch_level line n raw hm
    have hlevel : h.level = n := by
      cases hrec; rfl
    exact ⟨hlevel ▸ h1.symm ▸ rfl, hlevel ▸ h2, hlevel ▸ h3⟩

/-! ## Lemmas about dict update -/

/-- Overwriting key `k` in place leaves lookups of other keys
unchanged. -/
lemma lookup_map_set_ne (k kq : String) (v : PValue) (h : kq ≠ k) :
    ∀ d : Dict,
      List.lookup kq (d.map fun p => if p.1 = k then (k, v) else p) =
      List.lookup kq d := by
  intro d
  induction d with
  | nil => rfl
  | cons a t ih =>
    obtain ⟨ak, av⟩ := a
    by_cases ha : ak = k
    · rw [List.map_cons, if_pos (show (ak, av).1 = k from ha)]
      rw [List.lookup, List.lookup]
      rw [beq_eq_false_iff_ne.mpr h, beq_eq_false_iff_ne.mpr (ha ▸ h)]
      exact ih
    · rw [List.map_cons, if_neg (show ¬(ak, av).1 = k from ha)]
      rw [List.lookup, List.lookup]
      cases hkq : kq == ak with
      | true => rfl
      | false => exact ih

/-- Appending a binding for `k` at the end leaves lookups of other keys
unchanged. -/
lemma lookup_append_ne (k kq : String) (v : PValue) (h : kq ≠ k) :
    ∀ d : Dict, List.lookup kq (d ++ [(k, v)]) = List.lookup kq d := by
  intro d
  induction d with
  | nil =>
    simp only [List.nil_append, List.lookup,
      beq_eq_false_iff_ne.mpr h]
  | cons a t ih =>
    obtain ⟨ak, av⟩ := a
    simp only [List.cons_append, List.lookup]
    cases hkq : kq == ak with
    | true => rfl
    | false => exact ih

/-- Overwriting a present key `k` in place makes lookup of `k` return the
new value. -/
lemma lookup_map_set_same (k : String) (v : PValue) :
    ∀ d : Dict, (d.map Prod.fst).contains k = true →
      List.lookup k (d.map fun p => if p.1 = k then (k, v) else p) = some v := by
  intro d
  induction d with
  | nil => intro h; simp at h
  | cons a t ih =>
    intro h
    obtain ⟨ak, av⟩ := a
    by_cases ha : ak = k
    · rw [List.map_cons, if_pos (show (ak, av).1 = k from ha)]
      rw [List.lookup, beq_self_eq_true]
    · rw [List.map_cons, if_neg (show ¬(ak, av).1 = k from ha)]
      rw [List.lookup, beq_eq_false_iff_ne.mpr (Ne.symm ha)]
      apply ih
      simp only [List.map_cons, List.contains_cons, Bool.or_eq_true] at h
      rcases h with h | h
      · exact absurd (beq_iff_eq.mp h).symm ha
      · exact h

/-- Appending a binding for an absent key `k` makes lookup of `k` return
the new value. -/
lemma lookup_append_same (k : String) (v : PValue) :
    ∀ d : Dict, (d.map Prod.fst).contains k = false →
      List.lookup k (d ++ [(k, v)]) = some v := by
  intro d
  induction d with
  | nil => intro _; simp [List.lookup]
  | cons a t ih =>
    intro h
    obtain ⟨ak, av⟩ := a
    simp only [List.map_cons, List.contains_cons, Bool.or_eq_false_iff] at h
    simp only [List.cons_append, List.lookup, h.1]
    exact ih h.2

/-- `dictSet` then `dictGet` at the same key returns the stored value. -/
lemma dictGet_dictSet_same (d : Dict) (k : String) (v : PValue) :
    dictGet (dictSet d k v) k = some v := by
  unfold dictGet dictSet
  by_cases hc : (d.map Prod.fst).contains k
  · rw [if_pos hc]
    exact lookup_map_set_same k v d hc
  · rw [if_neg hc]
    exact lookup_append_same k v d (Bool.not_eq_true _ |>.mp hc)

/-- `dictSet` leaves every other key's value unchanged. -/
lemma dictGet_dictSet_ne (d : Dict) (k kq : String) (v : PValue)
    (h : kq ≠ k) : dictGet (dictSet d k v) kq = dictGet d kq := by
  unfold dictGet dictSet
  by_cases hc : (d.map Prod.fst).contains k
  · rw [if_pos hc]
    exact lookup_map_set_ne k kq v h d
  · rw [if_neg hc]
    exact lookup_append_ne k kq v h d

/-! ## Lemmas about the aggregation loop -/

/-- A directory lacking one of its two source files forces the whole
build to an error. -/
lemma buildPages_error_of_missing :
    ∀ (ds : List DirEntry),
      (∃ e ∈ ds, e.indexMd = none ∨ e.metadataJson = none) →
      ∃ err, buildPages ds = Except.error err := by
  intro ds
  induction ds with
  | nil => intro h; simp at h
  | cons e rest ih =>
    intro h
    cases hi : e.indexMd with
    | none =>
      exact ⟨CompileError.missingSource e.name, by simp [buildPages, hi]⟩
    | some content =>
      cases hm : e.metadataJson with
      | none =>
        exact ⟨CompileError.missingSource e.name, by simp [buildPages, hi, hm]⟩
      | some meta =>
        rcases h with ⟨e0, he0, hbad⟩
        rcases List.mem_cons.mp he0 with heq | hmem
        · subst heq
          rcases hbad with hbad | hbad
          · rw [hi] at hbad; cases hbad
          · rw [hm] at hbad; cases hbad
        · obtain ⟨err, herr⟩ := ih ⟨e0, hmem, hbad⟩
          exact ⟨err, by simp [buildPages, hi, hm, herr]⟩

/-! ## Lemmas about whitespace-only titles -/

/-- Whitespace characters are not the hash character. -/
lemma space_not_hash {c : Char} (h : pyIsSpace c = true) :
    (decide (c.toNat = 35)) = false := by
  simp only [pyIsSpace, Bool.or_eq_true, decide_eq_true_eq] at h
  simp only [decide_eq_false_iff_not]
  omega

/-- Leading-hash count and hash-stripping of a line made of `n` hashes
followed by whitespace. -/
lemma hashes_then_spaces (n : Nat) (ws : List Char)
    (h : ∀ c ∈ ws, pyIsSpace c = true) :
    countHashes (List.replicate n hashChar ++ ws) = n ∧
    (List.replicate n hashChar ++ ws).dropWhile (fun c => c.toNat = 35) = ws := by
  induction n with
  | zero =>
    simp only [List.replicate, List.nil_append]
    cases ws with
    | nil => exact ⟨rfl, rfl⟩
    | cons c t =>
      have hc := space_not_hash (h c (List.mem_cons_self c t))
      constructor
      · simp [countHashes, List.takeWhile, hc]
      · simp [List.dropWhile, hc]
  | succ m ih =>
    have hhash : (decide (hashChar.toNat = 35)) = true := by decide
    constructor
    · show countHashes (hashChar :: (List.replicate m hashChar ++ ws)) = m + 1
      simp only [countHashes, List.takeWhile, hhash, List.length_cons]
      exact congrArg (· + 1) ih.1
    · show (hashChar :: (List.replicate m hashChar ++ ws)).dropWhile
        (fun c => c.toNat = 35) = ws
      simp only [List.dropWhile, hhash]
      exact ih.2

/-- `dropWhile` of a whitespace test consumes a fully-whitespace list. -/
lemma dropWhile_all_space :
    ∀ (l : List Char), (∀ c ∈ l, pyIsSpace c = true) →
      l.dropWhile pyIsSpace = [] := by
  intro l
  induction l with
  | nil => intro _; rfl
  | cons c t ih =>
    intro h
    simp only [List.dropWhile, h c (List.mem_cons_self c t)]
    exact ih fun d hd => h d (List.mem_cons_of_mem c hd)

/-- Stripping a fully-whitespace list yields the empty list. -/
lemma pyStrip_all_space (l : List Char) (h : ∀ c ∈ l, pyIsSpace c = true) :
    pyStrip l = [] := by
  unfold pyStrip
  rw [dropWhile_all_space l h]
  rfl

/-! ## Claims -/

/-- C1: a line reached while the fence state is open (`in_code_block =
true`) and which is not itself a fence line contributes no record to the
output: deleting it does not change the result of the line loop.  The
state in effect when the line is reached is `stateAfter b p`, the boolean
toggled by each fence line of the preceding lines `p` (fence lines
themselves are never evaluated as headers by `parseLines`). -/
theorem parse_skips_line_in_open_code_block (b : Bool)
    (p : List (List Char)) (l : List Char) (rest : List (List Char))
    (hstate : stateAfter b p = true) (hl : isFenceLine l = false) :
    parseLines b (p ++ l :: rest) = parseLines b (p ++ rest) := by
  rw [parseLines_append, parseLines_append, hstate]
  congr 1
  show parseLines true (l :: rest) = parseLines true rest
  simp [parseLines, hl]

theorem parse_skips_line_in_open_code_block_witness :
    parseLines false (["```".data] ++ "# B".data :: []) =
      parseLines false (["```".data] ++ []) :=
  parse_skips_line_in_open_code_block false ["```".data] ("# B".data) []
    (by decide) (by decide)

/-- C2: `parse_markdown_headers` on the five-line document
`"# A\n```\n# B\n```\n## C"` yields exactly the records for `A` and `C`:
the header between the fences is suppressed, the one after the closing
fence is emitted. -/
theorem extract_headers_fence_example :
    parse_markdown_headers "# A\n```\n# B\n```\n## C" =
      [{ level := 1, id := "a", title := "A" },
       { level := 2, id := "c", title := "C" }] := by
  decide

/-- C4: the slug generator is idempotent on its own output (and, being a
function, is deterministic in its input alone). -/
theorem sanitize_id_idempotent (s : String) :
    sanitize_id (sanitize_id s) = sanitize_id s := by
  unfold sanitize_id
  exact congrArg String.mk (sanitizeList_idem s.data)

/-- C5: each maximal whitespace run — including the leading and trailing
ones — becomes a single hyphen, and the resulting edge hyphens are not
trimmed. -/
theorem sanitize_id_multiple_spaces :
    sanitize_id "  Multiple   Spaces  " = "-multiple-spaces-" := by
  decide

/-- C7: aggregating a page with metadata `{"title": "T"}`, directory name
`"foo"` and body `"# H"` yields exactly
`{"title": "T", "slug": "foo", "content": "# H",
"toc": [{"level": 1, "id": "h", "title": "H"}]}`. -/
theorem buildPage_round_trip :
    buildPage "foo" "# H" [("title", PValue.str "T")] =
      [("title", PValue.str "T"), ("slug", PValue.str "foo"),
       ("content", PValue.str "# H"),
       ("toc", PValue.toc [{ level := 1, id := "h", title := "H" }])] := by
  decide

/-- C3 (counterexample): it is NOT true that once a fence line has been
seen an odd number of times no subsequent line contributes a record — a
later fence line closes the block again.  In `"```\n```\n# A"` the fence
has been seen an odd number of times after the first line
(`stateAfter false [fence] = true`), yet the document's output is the
nonempty record list produced by the line after the second fence. -/
theorem odd_fence_count_not_permanent :
    ¬ (∀ (p rest : List (List Char)), stateAfter false p = true →
        parseLines false (p ++ rest) = parseLines false p) := by
  intro hclaim
  have h := hclaim ["```".data] ["```".data, "# A".data] (by decide)
  exact absurd h (by decide)

/-- C3 (amended): `parse_markdown_headers "```\n# Hidden" = []`, and in
general once the fence state is open (the preceding lines contain an odd
number of fence lines) and no LATER line is a fence line, no later line
contributes a record up to end of input — there is no implicit closing of
the block. -/
theorem unterminated_fence_suppresses_rest :
    parse_markdown_headers "```\n# Hidden" = [] ∧
    ∀ (b : Bool) (p rest : List (List Char)), stateAfter b p = true →
      (∀ l ∈ rest, isFenceLine l = false) →
      parseLines b (p ++ rest) = parseLines b p := by
  refine ⟨by decide, ?_⟩
  intro b p rest hstate hrest
  rw [parseLines_append, hstate, parseLines_true_no_fence rest hrest,
    List.append_nil]

theorem unterminated_fence_suppresses_rest_witness :
    parseLines false (["```".data] ++ ["# Hidden".data]) =
      parseLines false ["```".data] :=
  unterminated_fence_suppresses_rest.2 false ["```".data] ["# Hidden".data]
    (by decide) (by decide)

/-- C6: every emitted header record's level is the number of leading `#`
characters of its line and lies in 1..6, and a line with seven or more
leading hashes is never recognized as a header. -/
theorem header_level_spec :
    (∀ (line : List Char) (h : HeaderRecord),
        headerRecordOfLine line = some h →
        h.level = countHashes line ∧ 1 ≤ h.level ∧ h.level ≤ 6) ∧
    (∀ line : List Char, 7 ≤ countHashes line →
        headerRecordOfLine line = none) ∧
    (∀ (s : String) (h : HeaderRecord), h ∈ parse_markdown_headers s →
        1 ≤ h.level ∧ h.level ≤ 6) := by
  refine ⟨headerRecordOfLine_level, ?_, ?_⟩
  · intro line h7
    simp [headerRecordOfLine, headerMatch_none_of_many_hashes line h7]
  · intro s h hmem
    simp only [parse_markdown_headers] at hmem
    obtain ⟨line, _, he⟩ := mem_parseLines hmem
    exact (headerRecordOfLine_level line h he).2

theorem header_level_spec_witness :
    ((HeaderRecord.mk 1 "a" "A").level = countHashes ("# A".data) ∧
      1 ≤ (HeaderRecord.mk 1 "a" "A").level ∧
      (HeaderRecord.mk 1 "a" "A").level ≤ 6) ∧
    headerRecordOfLine ("####### x".data) = none ∧
    (1 ≤ (HeaderRecord.mk 1 "a" "A").level ∧
      (HeaderRecord.mk 1 "a" "A").level ≤ 6) :=
  ⟨header_level_spec.1 ("# A".data) (HeaderRecord.mk 1 "a" "A") (by decide),
   header_level_spec.2.1 ("####### x".data) (by decide),
   header_level_spec.2.2 "# A" (HeaderRecord.mk 1 "a" "A") (by decide)⟩

/-- C8: if any content directory lacks `index.md` or `metadata.json`, the
whole compilation results in an error and the output-writing step is never
reached: `directory.json` gets no content (`compileOutput` is `none`), so
no partial output exists. -/
theorem missing_source_aborts_run (ds : List DirEntry)
    (h : ∃ e ∈ ds, e.indexMd = none ∨ e.metadataJson = none) :
    (∃ err, buildPages ds = Except.error err) ∧ compileOutput ds = none := by
  obtain ⟨err, herr⟩ := buildPages_error_of_missing ds h
  exact ⟨⟨err, herr⟩, by rw [compileOutput, herr]; rfl⟩

theorem missing_source_aborts_run_witness :
    (∃ err, buildPages [⟨"foo", some "# H", none⟩] = Except.error err) ∧
    compileOutput [⟨"foo", some "# H", none⟩] = none :=
  missing_source_aborts_run [⟨"foo", some "# H", none⟩]
    ⟨⟨"foo", some "# H", none⟩, List.mem_singleton.mpr rfl, Or.inr rfl⟩

/-- C9: aggregation leaves every metadata field other than `slug`,
`content` and `toc` unchanged, and sets those three to the directory
name, the raw markdown body and the extracted TOC — overwriting any
pre-existing metadata value under those keys (the statements below hold
for EVERY metadata dict, including dicts that already bind `slug`,
`content` or `toc`). -/
theorem buildPage_frame (d c : String) (meta : Dict) :
    (∀ k : String, k ≠ "slug" → k ≠ "content" → k ≠ "toc" →
      dictGet (buildPage d c meta) k = dictGet meta k) ∧
    dictGet (buildPage d c meta) "slug" = some (PValue.str d) ∧
    dictGet (buildPage d c meta) "content" = some (PValue.str c) ∧
    dictGet (buildPage d c meta) "toc" =
      some (PValue.toc (parse_markdown_headers c)) := by
  refine ⟨?_, ?_, ?_, ?_⟩
  · intro k h1 h2 h3
    unfold buildPage
    rw [dictGet_dictSet_ne _ _ _ _ h3, dictGet_dictSet_ne _ _ _ _ h2,
      dictGet_dictSet_ne _ _ _ _ h1]
  · unfold buildPage
    rw [dictGet_dictSet_ne _ _ _ _ (by decide),
      dictGet_dictSet_ne _ _ _ _ (by decide), dictGet_dictSet_same]
  · unfold buildPage
    rw [dictGet_dictSet_ne _ _ _ _ (by decide), dictGet_dictSet_same]
  · unfold buildPage
    rw [dictGet_dictSet_same]

theorem buildPage_frame_witness :
    dictGet (buildPage "foo" "# H"
        [("title", PValue.str "T"), ("toc", PValue.str "stale")]) "title" =
      dictGet [("title", PValue.str "T"), ("toc", PValue.str "stale")]
        "title" ∧
    dictGet (buildPage "foo" "# H"
        [("title", PValue.str "T"), ("toc", PValue.str "stale")]) "toc" =
      some (PValue.toc (parse_markdown_headers "# H")) :=
  ⟨(buildPage_frame "foo" "# H"
      [("title", PValue.str "T"), ("toc", PValue.str "stale")]).1 "title"
      (by decide) (by decide) (by decide),
   (buildPage_frame "foo" "# H"
      [("title", PValue.str "T"), ("toc", PValue.str "stale")]).2.2.2⟩

/-- C10: a line of one to six hashes followed by two or more whitespace
characters and nothing else IS recognized as a header — the regex
backtracks so `(.+)` captures trailing whitespace — emitting a record
whose title and id are both empty; the same line with exactly ONE
trailing whitespace character is not a header and emits nothing. -/
theorem empty_title_header (n : Nat) (ws : List Char)
    (hn1 : 1 ≤ n) (hn6 : n ≤ 6)
    (hws : ∀ c ∈ ws, pyIsSpace c = true) (hlen : 2 ≤ ws.length) :
    headerRecordOfLine (List.replicate n hashChar ++ ws) =
      some { level := n, id := "", title := "" } ∧
    ∀ c : Char, pyIsSpace c = true →
      headerRecordOfLine (List.replicate n hashChar ++ [c]) = none := by
  constructor
  · obtain ⟨hcount, hdrop⟩ := hashes_then_spaces n ws hws
    cases ws with
    | nil => simp at hlen
    | cons c rest =>
      have hrest : rest ≠ [] := by
        cases rest with
        | nil => simp at hlen
        | cons a b => simp
      simp only [headerRecordOfLine, headerMatch]
      rw [hdrop, hcount]
      simp only []
      rw [if_pos ⟨hn1, hn6, hws c (List.mem_cons_self c rest), hrest⟩]
      have ht : (c :: rest).dropWhile pyIsSpace = [] :=
        dropWhile_all_space (c :: rest) hws
      rw [ht]
      simp only [List.isEmpty_nil, if_pos]
      have hdropsub : ∀ d ∈ (c :: rest).drop ((c :: rest).length - 1),
          pyIsSpace d = true :=
        fun d hd => hws d (List.drop_subset _ _ hd)
      rw [pyStrip_all_space _ hdropsub]
      rfl
  · intro c hc
    have hone : ∀ d ∈ [c], pyIsSpace d = true := by
      intro d hd
      rw [List.mem_singleton.mp hd]
      exact hc
    obtain ⟨hcount2, hdrop2⟩ := hashes_then_spaces n [c] hone
    simp only [headerRecordOfLine, headerMatch]
    rw [hdrop2, hcount2]
    simp only []
    rw [if_neg]
    intro habs
    exact habs.2.2.2 rfl

theorem empty_title_header_witness :
    headerRecordOfLine (List.replicate 2 hashChar ++ [' ', ' ']) =
      some { level := 2, id := "", title := "" } ∧
    headerRecordOfLine (List.replicate 2 hashChar ++ [' ']) = none :=
  ⟨(empty_title_header 2 [' ', ' '] (by decide) (by decide) (by decide)
      (by decide)).1,
   (empty_title_header 2 [' ', ' '] (by decide) (by decide) (by decide)
      (by decide)).2 ' ' (by decide)⟩

end Notebook
